import Mathlib

/-!
Verification of the cryptopals toolkit (src/io.rs and src/xor/mod.rs).

Bytes are modelled as `Nat` (the Rust code works on `u8`; wherever a `u8`
operation can overflow, the reduction `% 256` is written explicitly).
The `f64` values produced by the scorer and the key-length estimator are
modelled by `FP`: either NaN or an exact real number.  Rounding is
abstracted away (exact real arithmetic).  IEEE infinities are not
modelled: the only divisions performed by the program are
`count / total` in `englishness` (where `count ≤ total`, so a zero
denominator forces a zero numerator, the `0.0 / 0.0 = NaN` case) and
`d / c` in `find_repeating_key_xor_key_length` (where `c > 0` for every
candidate length); both facts are proved below, so a division by zero
with a nonzero numerator, the only source of an infinity, never occurs.
-/

set_option maxRecDepth 10000

namespace Cryptopals

/-- Model of an `f64` value reachable in this program: NaN or a finite real. -/
inductive FP where
  | nan : FP
  | val : ℝ → FP

namespace FP

/-- IEEE `<` : comparisons involving NaN are false. -/
def Lt : FP → FP → Prop
  | val x, val y => x < y
  | _, _ => False

noncomputable instance : DecidableRel Lt := fun a b =>
  match a, b with
  | val x, val y => inferInstanceAs (Decidable (x < y))
  | nan, _ => isFalse id
  | val _, nan => isFalse id

/-- IEEE addition restricted to the reachable values: NaN propagates. -/
def add : FP → FP → FP
  | val x, val y => val (x + y)
  | _, _ => nan

/-- IEEE multiplication restricted to the reachable values: NaN propagates. -/
def mul : FP → FP → FP
  | val x, val y => val (x * y)
  | _, _ => nan

/-- IEEE division restricted to the reachable values: NaN propagates and
`0.0 / 0.0` is NaN.  A division `x / 0` with `x ≠ 0` (an IEEE infinity)
never occurs in this program, see the divisor lemmas below. -/
noncomputable def div : FP → FP → FP
  | val x, val y => if y = 0 then nan else val (x / y)
  | _, _ => nan

/-- IEEE square root on the reachable values: NaN propagates, a negative
argument (which never occurs here) gives NaN. -/
noncomputable def sqrt : FP → FP
  | val x => if x < 0 then nan else val (Real.sqrt x)
  | nan => nan

theorem lt_trans : ∀ {a b c : FP}, Lt a b → Lt b c → Lt a c
  | val _, val _, val _, h1, h2 => h1.trans h2
  | nan, _, _, h1, _ => h1.elim
  | val _, nan, _, h1, _ => h1.elim
  | val _, val _, nan, _, h2 => h2.elim

theorem lt_elim : ∀ {a b : FP}, Lt a b → ∃ x y, a = val x ∧ b = val y ∧ x < y
  | val x, val y, h => ⟨x, y, rfl, rfl, h⟩
  | nan, _, h => h.elim
  | val _, nan, h => h.elim

theorem not_lt_nan_left {b : FP} : ¬ Lt nan b := id

theorem not_lt_nan_right : ∀ {a : FP}, ¬ Lt a nan
  | nan => id
  | val _ => id

end FP

/-! ## src/io.rs : base-16 and base-64 codec -/

/-- Outcome of a decoder call.  `panicked` models the `unwrap` on the
chunk-to-array conversion failing (a chunk shorter than the full size);
the length checks are supposed to rule it out. -/
inductive DecodeResult where
  | ok : List Nat → DecodeResult
  | err : DecodeResult
  | panicked : DecodeResult
deriving DecidableEq

/-- Value of one base-16 symbol, following the `match` in `from_base16`:
digits, lowercase, uppercase; anything else maps to `0xff`. -/
def b16CharVal (c : Nat) : Nat :=
  if 48 ≤ c ∧ c ≤ 57 then c - 48
  else if 97 ≤ c ∧ c ≤ 102 then 10 + c - 97
  else if 65 ≤ c ∧ c ≤ 70 then 10 + c - 65
  else 0xff

/-- The chunk loop of `from_base16`: consume the input two symbols at a
time; both nibbles must be `≤ 0x0f` or the call fails.  A leftover chunk
of one symbol would make the array conversion panic. -/
def from_base16_go : List Nat → DecodeResult
  | [] => .ok []
  | c1 :: c2 :: rest =>
    let i1 := b16CharVal c1
    let i2 := b16CharVal c2
    if i1 ≤ 0x0f ∧ i2 ≤ 0x0f then
      match from_base16_go rest with
      | .ok bs => .ok ((((i1 <<< 4) % 256) ||| i2) :: bs)
      | r => r
    else .err
  | [_] => .panicked

/-- `from_base16` from src/io.rs: reject odd length, then decode pairs. -/
def from_base16 (input : List Nat) : DecodeResult :=
  if input.length % 2 ≠ 0 then .err else from_base16_go input

/-- Value of one base-64 symbol, following the `match` in `from_base64`:
the pad symbol `=` maps to `0xfe`, anything outside the alphabet to `0xff`. -/
def b64CharVal (c : Nat) : Nat :=
  if 65 ≤ c ∧ c ≤ 90 then c - 65
  else if 97 ≤ c ∧ c ≤ 122 then 26 + c - 97
  else if 48 ≤ c ∧ c ≤ 57 then 52 + c - 48
  else if c = 43 then 62
  else if c = 47 then 63
  else if c = 61 then 0xfe
  else 0xff

/-- The chunk loop of `from_base64`: consume four symbols at a time.  The
three accepted shapes are no pad, one trailing pad, two trailing pads,
producing three, two and one bytes; every other shape fails.  A leftover
chunk of fewer than four symbols would make the array conversion panic. -/
def from_base64_go : List Nat → DecodeResult
  | [] => .ok []
  | c1 :: c2 :: c3 :: c4 :: rest =>
    let i1 := b64CharVal c1
    let i2 := b64CharVal c2
    let i3 := b64CharVal c3
    let i4 := b64CharVal c4
    if i1 ≤ 0x3f ∧ i2 ≤ 0x3f ∧ i3 ≤ 0x3f ∧ i4 ≤ 0x3f then
      match from_base64_go rest with
      | .ok bs =>
        .ok ((((i1 <<< 2) % 256) ||| (i2 >>> 4)) ::
             (((i2 <<< 4) % 256) ||| (i3 >>> 2)) ::
             (((i3 <<< 6) % 256) ||| i4) :: bs)
      | r => r
    else if i1 ≤ 0x3f ∧ i2 ≤ 0x3f ∧ i3 ≤ 0x3f ∧ i4 = 0xfe then
      match from_base64_go rest with
      | .ok bs =>
        .ok ((((i1 <<< 2) % 256) ||| (i2 >>> 4)) ::
             (((i2 <<< 4) % 256) ||| (i3 >>> 2)) :: bs)
      | r => r
    else if i1 ≤ 0x3f ∧ i2 ≤ 0x3f ∧ i3 = 0xfe ∧ i4 = 0xfe then
      match from_base64_go rest with
      | .ok bs => .ok ((((i1 <<< 2) % 256) ||| (i2 >>> 4)) :: bs)
      | r => r
    else .err
  | [_] => .panicked
  | [_, _] => .panicked
  | [_, _, _] => .panicked

/-- `from_base64` from src/io.rs: reject length not a multiple of four,
then decode four-symbol groups. -/
def from_base64 (input : List Nat) : DecodeResult :=
  if input.length % 4 ≠ 0 then .err else from_base64_go input

/-- Symbol for one nibble, following the `match` in the `ToBase16`
formatter.  The catch-all arm is `unreachable` in the source; it is
given the junk value `0` here. -/
def b16SymbolChar (i : Nat) : Nat :=
  if i ≤ 9 then 48 + i
  else if i ≤ 15 then 97 + i - 10
  else 0

/-- The `ToBase16` formatter: each byte yields its high then low nibble. -/
def toBase16 : List Nat → List Nat
  | [] => []
  | b :: rest =>
    b16SymbolChar ((b &&& 0xf0) >>> 4) :: b16SymbolChar (b &&& 0x0f) :: toBase16 rest

/-- Symbol for one 6-bit group, following the `match` in the `ToBase64`
formatter; the internal marker `0xff` renders as the pad `=`.  The
catch-all arm is `unreachable` in the source; it is given the junk
value `0` here. -/
def b64SymbolChar (i : Nat) : Nat :=
  if i ≤ 25 then 65 + i
  else if i ≤ 51 then 97 + i - 26
  else if i ≤ 61 then 48 + i - 52
  else if i = 62 then 43
  else if i = 63 then 47
  else if i = 0xff then 61
  else 0

/-- The `ToBase64` formatter: three-byte chunks yield four symbols; a
final chunk of one or two bytes yields two or three symbols plus pads
(the `0xff` markers).  Shifts are on `u8`, hence the `% 256`. -/
def toBase64 : List Nat → List Nat
  | [] => []
  | [b1] =>
    b64SymbolChar ((b1 &&& 0xfc) >>> 2) ::
    b64SymbolChar (((b1 &&& 0x03) <<< 4) % 256) ::
    b64SymbolChar 0xff :: b64SymbolChar 0xff :: []
  | [b1, b2] =>
    b64SymbolChar ((b1 &&& 0xfc) >>> 2) ::
    b64SymbolChar ((((b1 &&& 0x03) <<< 4) % 256) ||| ((b2 &&& 0xf0) >>> 4)) ::
    b64SymbolChar (((b2 &&& 0x0f) <<< 2) % 256) ::
    b64SymbolChar 0xff :: []
  | b1 :: b2 :: b3 :: rest =>
    b64SymbolChar ((b1 &&& 0xfc) >>> 2) ::
    b64SymbolChar ((((b1 &&& 0x03) <<< 4) % 256) ||| ((b2 &&& 0xf0) >>> 4)) ::
    b64SymbolChar (((((b2 &&& 0x0f) <<< 2) % 256) ||| ((b3 &&& 0xc0) >>> 6))) ::
    b64SymbolChar (b3 &&& 0x3f) :: toBase64 rest

/-! ## src/xor/mod.rs : the cryptanalysis engine -/

/-- `xor` from src/xor/mod.rs: zip two byte sequences and xor pairwise,
truncating to the shorter input. -/
def xor_bytes (bytes1 bytes2 : List Nat) : List Nat :=
  List.zipWith (fun b1 b2 => b1 ^^^ b2) bytes1 bytes2

/-- `xor(bytes, iter::repeat(b))`: zipping a finite sequence with the
infinite repetition of `b` pairs every byte of `bytes` with `b`, so the
repetition is materialised with the length of `bytes`. -/
def xorRepeat (bytes : List Nat) (b : Nat) : List Nat :=
  xor_bytes bytes (List.replicate bytes.length b)

/-- The reference letter-frequency table `DICTIONARY` (A-Z and space). -/
def DICTIONARY : List (Nat × ℚ) :=
  [(65, 0.0651738), (66, 0.0124248), (67, 0.0217339), (68, 0.0349835),
   (69, 0.1041442), (70, 0.0197881), (71, 0.0158610), (72, 0.0492888),
   (73, 0.0558094), (74, 0.0009033), (75, 0.0050529), (76, 0.0331490),
   (77, 0.0202124), (78, 0.0564513), (79, 0.0596302), (80, 0.0137645),
   (81, 0.0008606), (82, 0.0497563), (83, 0.0515760), (84, 0.0729357),
   (85, 0.0225134), (86, 0.0082903), (87, 0.0171272), (88, 0.0013692),
   (89, 0.0145984), (90, 0.0007836), (32, 0.1918182)]

/-- `u8::to_ascii_uppercase`. -/
def toAsciiUppercase (b : Nat) : Nat :=
  if 97 ≤ b ∧ b ≤ 122 then b - 32 else b

/-- Number of occurrences of `c` among the case-folded input bytes: the
value `counts.get(c)` of the tally map built by `englishness` (with `0`
for an absent key). -/
def countByte (bytes : List Nat) (c : Nat) : Nat :=
  (bytes.map toAsciiUppercase).count c

/-- `englishness` from src/xor/mod.rs: sum, over the dictionary entries,
of `sqrt((count / total) * f)`, starting from `0.0`.  `total` is the
number of input bytes; there is no special case for `total == 0`. -/
noncomputable def englishness (bytes : List Nat) : FP :=
  DICTIONARY.foldl
    (fun bc p =>
      FP.add bc (FP.sqrt (FP.mul
        (FP.div (FP.val (countByte bytes p.1)) (FP.val bytes.length))
        (FP.val (p.2 : ℝ)))))
    (FP.val 0)

/-- `find_single_byte_xor_key` from src/xor/mod.rs: try every key byte
`0x00..=0xff` in ascending order, keep the strictly best englishness,
starting from `(0, 0.0)`. -/
noncomputable def find_single_byte_xor_key (bytes : List Nat) : Nat × FP :=
  (List.range 256).foldl
    (fun best b =>
      let e := englishness (xorRepeat bytes b)
      if FP.Lt best.2 e then (b, e) else best)
    (0, FP.val 0)

/-- `u32::count_ones` on a byte value (the xor of two `u8` is `< 256`,
so exactly the eight bits below are set): the number of set bits. -/
def countOnes (n : Nat) : Nat :=
  n % 2 + n / 2 % 2 + n / 4 % 2 + n / 8 % 2 +
  n / 16 % 2 + n / 32 % 2 + n / 64 % 2 + n / 128 % 2

/-- `hamming_distance` from src/xor/mod.rs: total number of differing
bits over the zipped (truncated) region, together with eight times the
number of compared byte pairs. -/
def hamming_distance (bytes1 bytes2 : List Nat) : Nat × Nat :=
  let zipped := List.zipWith (fun b1 b2 => countOnes (b1 ^^^ b2)) bytes1 bytes2
  (zipped.sum, zipped.length * 8)

def MAX_SEARCHED_KEY_LENGTH : Nat := 40

/-- `find_repeating_key_xor_key_length` from src/xor/mod.rs: for each
candidate length `l` in `1..min(len, 41)`, the normalized Hamming
distance between the input skipped by `l` and the input itself; keep the
strictly smallest, starting from `(1, 1.0)`. -/
noncomputable def find_repeating_key_xor_key_length (bytes : List Nat) : Nat × FP :=
  let max_len := min bytes.length (MAX_SEARCHED_KEY_LENGTH + 1)
  (List.range' 1 (max_len - 1)).foldl
    (fun best l =>
      let dc := hamming_distance (bytes.drop l) bytes
      let d := FP.div (FP.val dc.1) (FP.val dc.2)
      if FP.Lt d best.2 then (l, d) else best)
    (1, FP.val 1)

/-- `Iterator::step_by(step)`: the first element, then every `step`-th
element after it.  The source only calls this with `step ≥ 1` (a zero
step panics in Rust and is unreachable here). -/
def stepBy (step : Nat) : List Nat → List Nat
  | [] => []
  | b :: rest => b :: stepBy step (rest.drop (step - 1))
termination_by l => l.length
decreasing_by simp only [List.length_drop, List.length_cons]; omega

/-- `find_repeating_key_xor_key` from src/xor/mod.rs: estimate the key
length `l`, then for each column index `i < l` run the single-byte
breaker on `bytes.skip(i).step_by(l)`.  The source writes the winning
bytes into a vector of length `l`, one index each, which is the same as
mapping over `0..l`. -/
noncomputable def find_repeating_key_xor_key (bytes : List Nat) : List Nat :=
  let l := (find_repeating_key_xor_key_length bytes).1
  (List.range l).map
    (fun i => (find_single_byte_xor_key (stepBy l (bytes.drop i))).1)

/-! ## Supporting lemmas -/

lemma xorRepeat_cons (b k : Nat) (rest : List Nat) :
    xorRepeat (b :: rest) k = (b ^^^ k) :: xorRepeat rest k := by
  simp [xorRepeat, xor_bytes, List.replicate_succ]

lemma foldl_const_nan {α : Type} (f : FP → α → FP) (hf : ∀ bc p, f bc p = FP.nan) :
    ∀ (l : List α) (a : FP), l.foldl f a = if l.isEmpty then a else FP.nan := by
  intro l
  induction l with
  | nil => intro a; rfl
  | cons p rest ih =>
    intro a
    rw [List.foldl_cons, hf, ih]
    cases rest <;> simp

lemma englishness_step_nil (bc : FP) (p : Nat × ℚ) :
    FP.add bc (FP.sqrt (FP.mul
      (FP.div (FP.val (countByte [] p.1)) (FP.val (List.length ([] : List Nat))))
      (FP.val (p.2 : ℝ)))) = FP.nan := by
  have h1 : countByte [] p.1 = 0 := rfl
  rw [h1]
  have h2 : FP.div (FP.val ((0 : ℕ) : ℝ)) (FP.val ((List.length ([] : List Nat) : ℕ) : ℝ))
      = FP.nan := by
    simp only [List.length_nil, Nat.cast_zero, FP.div, if_pos rfl, eq_self_iff_true, if_true]
  rw [h2]
  cases bc <;> rfl

/-- On the empty input `total = 0`, every addend is `sqrt((0/0) * f)` and
the NaN produced by `0.0 / 0.0` propagates through the whole sum. -/
lemma englishness_nil : englishness [] = FP.nan := by
  unfold englishness
  rw [foldl_const_nan _ englishness_step_nil]
  rfl

/-! ## Claims about the codec -/

/-- C6: XOR with a repeated key byte is self-inverse: applying
`xor(-, repeat(K))` twice recovers the original sequence exactly,
length included. -/
theorem claim_C6 (B : List Nat) (K : Nat) : xorRepeat (xorRepeat B K) K = B := by
  induction B with
  | nil => rfl
  | cons b rest ih =>
    rw [xorRepeat_cons, xorRepeat_cons, ih, Nat.xor_assoc, Nat.xor_self, Nat.xor_zero]

/-- C8: `from_base16` fails on every odd-length input and `from_base64`
fails on every input whose length is not a multiple of four; in both
cases the result is the error value, carrying no bytes. -/
theorem claim_C8 (input : List Nat) :
    (input.length % 2 ≠ 0 → from_base16 input = DecodeResult.err) ∧
    (input.length % 4 ≠ 0 → from_base64 input = DecodeResult.err) := by
  constructor
  · intro h; unfold from_base16; rw [if_pos h]
  · intro h; unfold from_base64; rw [if_pos h]

/-- C8 witness: the one-symbol input `"a"` is rejected by both decoders. -/
theorem claim_C8_witness :
    ([97] : List Nat).length % 2 ≠ 0 ∧ ([97] : List Nat).length % 4 ≠ 0 ∧
    from_base16 [97] = DecodeResult.err ∧ from_base64 [97] = DecodeResult.err :=
  ⟨by decide, by decide, (claim_C8 [97]).1 (by decide), (claim_C8 [97]).2 (by decide)⟩

/-- C1 counterexample: on the empty byte sequence `englishness` does not
return the real number `0`: the division by `total_bytes` is not guarded
and `0.0 / 0.0` produces NaN. -/
theorem claim_C1_counterexample : englishness [] ≠ FP.val 0 := by
  rw [englishness_nil]
  exact fun h => FP.noConfusion h

/-- C1 amended: for the empty byte sequence `englishness` returns NaN:
`total_bytes == 0` is not special-cased, the division `0.0 / 0.0` yields
NaN, and the NaN propagates through the multiplication, the square root
and the running sum. -/
theorem claim_C1_amended : englishness [] = FP.nan := englishness_nil

lemma from_base16_go_no_panic :
    ∀ (l : List Nat), l.length % 2 = 0 → from_base16_go l ≠ DecodeResult.panicked
  | [], _ => by simp [from_base16_go]
  | [_], h => by simp at h
  | c1 :: c2 :: rest, h => by
    have ih := from_base16_go_no_panic rest (by simp only [List.length_cons] at h; omega)
    simp only [from_base16_go]
    split
    · cases hr : from_base16_go rest with
      | ok bs => simp
      | err => simp
      | panicked => exact absurd hr ih
    · simp

lemma from_base64_go_no_panic :
    ∀ (l : List Nat), l.length % 4 = 0 → from_base64_go l ≠ DecodeResult.panicked
  | [], _ => by simp [from_base64_go]
  | [_], h => by simp at h
  | [_, _], h => by simp at h
  | [_, _, _], h => by simp at h
  | c1 :: c2 :: c3 :: c4 :: rest, h => by
    have ih := from_base64_go_no_panic rest (by simp only [List.length_cons] at h; omega)
    simp only [from_base64_go]
    split
    · cases hr : from_base64_go rest with
      | ok bs => simp
      | err => simp
      | panicked => exact absurd hr ih
    · split
      · cases hr : from_base64_go rest with
        | ok bs => simp
        | err => simp
        | panicked => exact absurd hr ih
      · split
        · cases hr : from_base64_go rest with
          | ok bs => simp
          | err => simp
          | panicked => exact absurd hr ih
        · simp

/-- C9: on every input whatsoever the two decoders return a decode
result or an error and never panic: the length checks guarantee that
every chunk passed to the array conversion has exactly two respectively
four symbols. -/
theorem claim_C9 (input : List Nat) :
    from_base16 input ≠ DecodeResult.panicked ∧ from_base64 input ≠ DecodeResult.panicked := by
  constructor
  · unfold from_base16
    split
    · simp
    · next h => exact from_base16_go_no_panic input (by omega)
  · unfold from_base64
    split
    · simp
    · next h => exact from_base64_go_no_panic input (by omega)

/-- C9 witness: the decoders evaluated at a concrete malformed input do
not panic. -/
theorem claim_C9_witness :
    from_base16 [97] ≠ DecodeResult.panicked ∧
    from_base64 [97] ≠ DecodeResult.panicked :=
  ⟨(claim_C9 [97]).1, (claim_C9 [97]).2⟩

/-! ## Misplaced pad symbols (C2) -/

/-- A pad symbol that is followed, within the same aligned four-symbol
group, by a symbol of the base-64 alphabet (a mapped value `≤ 0x3f`). -/
def hasMisplacedPad : List Nat → Bool
  | c1 :: c2 :: c3 :: c4 :: rest =>
    (decide (b64CharVal c1 = 0xfe) &&
       (decide (b64CharVal c2 ≤ 0x3f) || decide (b64CharVal c3 ≤ 0x3f) ||
        decide (b64CharVal c4 ≤ 0x3f)) ||
     decide (b64CharVal c2 = 0xfe) &&
       (decide (b64CharVal c3 ≤ 0x3f) || decide (b64CharVal c4 ≤ 0x3f)) ||
     decide (b64CharVal c3 = 0xfe) && decide (b64CharVal c4 ≤ 0x3f)) ||
    hasMisplacedPad rest
  | _ => false

lemma from_base64_go_misplaced :
    ∀ (l : List Nat), hasMisplacedPad l = true → from_base64_go l = DecodeResult.err
  | [], h => by simp [hasMisplacedPad] at h
  | [_], h => by simp [hasMisplacedPad] at h
  | [_, _], h => by simp [hasMisplacedPad] at h
  | [_, _, _], h => by simp [hasMisplacedPad] at h
  | c1 :: c2 :: c3 :: c4 :: rest, h => by
    simp only [hasMisplacedPad, Bool.or_eq_true, Bool.and_eq_true,
      decide_eq_true_eq] at h
    rcases h with (((⟨h1, h2⟩ | ⟨h1, h2⟩) | ⟨h1, h2⟩) | hrest)
    · simp only [from_base64_go]
      rw [if_neg (by omega), if_neg (by omega), if_neg (by omega)]
    · simp only [from_base64_go]
      rw [if_neg (by omega), if_neg (by omega), if_neg (by omega)]
    · simp only [from_base64_go]
      rw [if_neg (by omega), if_neg (by omega), if_neg (by omega)]
    · have ih := from_base64_go_misplaced rest hrest
      simp only [from_base64_go]
      split
      · rw [ih]
      · split
        · rw [ih]
        · split
          · rw [ih]
          · rfl

/-- C2 counterexample: in the input `"AA==AAAA"` the pad symbol `=`
occurs at a non-trailing position (the alphabet symbol `A` occurs after
it), yet `from_base64` decodes it successfully instead of failing. -/
theorem claim_C2_counterexample :
    from_base64 [65, 65, 61, 61, 65, 65, 65, 65] = DecodeResult.ok [0, 0, 0, 0] := by decide

/-- C2 amended: a pad symbol that is followed by a non-pad alphabet
symbol within the same aligned four-symbol group makes `from_base64`
fail.  (A pad that merely terminates its own group does not invalidate
later groups: the chunks are decoded independently, see the
counterexample.) -/
theorem claim_C2_amended (input : List Nat) (h : hasMisplacedPad input = true) :
    from_base64 input = DecodeResult.err := by
  unfold from_base64
  split
  · rfl
  · exact from_base64_go_misplaced input h

/-- C2 witness: `"A=AA"` has a pad followed by an alphabet symbol inside
one group and is rejected. -/
theorem claim_C2_witness :
    hasMisplacedPad [65, 61, 65, 65] = true ∧
    from_base64 [65, 61, 65, 65] = DecodeResult.err :=
  ⟨by decide, claim_C2_amended [65, 61, 65, 65] (by decide)⟩

/-! ## Codec round-trips (C7).  The bit-level identities are finite
checks over the byte range and are discharged by `decide`. -/

lemma b16_sym_val : ∀ i ≤ 15, b16CharVal (b16SymbolChar i) = i := by decide

lemma b16_hi_le : ∀ b < 256, ((b &&& 0xf0) >>> 4) ≤ 15 := by decide

lemma b16_lo_le : ∀ b < 256, (b &&& 0x0f) ≤ 15 := by decide

lemma b16_recombine :
    ∀ b < 256, ((((b &&& 0xf0) >>> 4) <<< 4) % 256) ||| (b &&& 0x0f) = b := by decide

lemma b64_sym_val : ∀ i ≤ 63, b64CharVal (b64SymbolChar i) = i := by decide

lemma b64_pad_val : b64CharVal (b64SymbolChar 0xff) = 0xfe := rfl

lemma b64_i1_le : ∀ b < 256, ((b &&& 0xfc) >>> 2) ≤ 63 := by decide

lemma b64_x_le : ∀ b < 256, (b &&& 0x03) ≤ 3 := by decide

lemma b64_h_le : ∀ b < 256, ((b &&& 0xf0) >>> 4) ≤ 15 := by decide

lemma b64_y_le : ∀ b < 256, (b &&& 0x0f) ≤ 15 := by decide

lemma b64_z_le : ∀ b < 256, ((b &&& 0xc0) >>> 6) ≤ 3 := by decide

lemma b64_i4_le : ∀ b < 256, (b &&& 0x3f) ≤ 63 := by decide

lemma b64_i2_le : ∀ x ≤ 3, ∀ h ≤ 15, (((x <<< 4) % 256) ||| h) ≤ 63 := by decide

lemma b64_i2s_le : ∀ x ≤ 3, ((x <<< 4) % 256) ≤ 63 := by decide

lemma b64_i3_le : ∀ y ≤ 15, ∀ z ≤ 3, (((y <<< 2) % 256) ||| z) ≤ 63 := by decide

lemma b64_i3s_le : ∀ y ≤ 15, ((y <<< 2) % 256) ≤ 63 := by decide

lemma b64_rec1 :
    ∀ b1 < 256, ∀ h ≤ 15,
      ((((b1 &&& 0xfc) >>> 2) <<< 2) % 256) |||
        (((((b1 &&& 0x03) <<< 4) % 256) ||| h) >>> 4) = b1 := by decide

lemma b64_rec1s :
    ∀ b1 < 256,
      ((((b1 &&& 0xfc) >>> 2) <<< 2) % 256) |||
        ((((b1 &&& 0x03) <<< 4) % 256) >>> 4) = b1 := by decide

lemma b64_rec2 :
    ∀ x ≤ 3, ∀ b2 < 256, ∀ z ≤ 3,
      ((((((x <<< 4) % 256) ||| ((b2 &&& 0xf0) >>> 4)) <<< 4) % 256) |||
        (((((b2 &&& 0x0f) <<< 2) % 256) ||| z) >>> 2)) = b2 := by decide

lemma b64_rec2s :
    ∀ x ≤ 3, ∀ b2 < 256,
      ((((((x <<< 4) % 256) ||| ((b2 &&& 0xf0) >>> 4)) <<< 4) % 256) |||
        ((((b2 &&& 0x0f) <<< 2) % 256) >>> 2)) = b2 := by decide

lemma b64_rec3 :
    ∀ y ≤ 15, ∀ b3 < 256,
      ((((((y <<< 2) % 256) ||| ((b3 &&& 0xc0) >>> 6)) <<< 6) % 256) |||
        (b3 &&& 0x3f)) = b3 := by decide

lemma toBase16_length : ∀ (l : List Nat), (toBase16 l).length = 2 * l.length
  | [] => rfl
  | b :: rest => by
    have ih := toBase16_length rest
    simp only [toBase16, List.length_cons, ih]
    omega

lemma toBase64_length_mod : ∀ (l : List Nat), (toBase64 l).length % 4 = 0
  | [] => rfl
  | [_] => by simp [toBase64]
  | [_, _] => by simp [toBase64]
  | _ :: _ :: _ :: rest => by
    have ih := toBase64_length_mod rest
    simp only [toBase64, List.length_cons]
    omega

lemma from_base16_go_toBase16 :
    ∀ (l : List Nat), (∀ b ∈ l, b < 256) → from_base16_go (toBase16 l) = DecodeResult.ok l
  | [], _ => rfl
  | b :: rest, h => by
    have hb : b < 256 := h b (List.mem_cons_self b rest)
    have ih := from_base16_go_toBase16 rest (fun x hx => h x (List.mem_cons_of_mem b hx))
    simp only [toBase16, from_base16_go,
      b16_sym_val _ (b16_hi_le b hb), b16_sym_val _ (b16_lo_le b hb)]
    rw [if_pos ⟨b16_hi_le b hb, b16_lo_le b hb⟩, ih, b16_recombine b hb]

lemma from_base64_go_toBase64 :
    ∀ (l : List Nat), (∀ b ∈ l, b < 256) → from_base64_go (toBase64 l) = DecodeResult.ok l
  | [], _ => rfl
  | [b1], h => by
    have hb1 : b1 < 256 := h b1 (by simp)
    simp only [toBase64, from_base64_go, b64_pad_val,
      b64_sym_val _ (b64_i1_le b1 hb1), b64_sym_val _ (b64_i2s_le _ (b64_x_le b1 hb1))]
    rw [if_neg (by omega), if_neg (by omega),
      if_pos ⟨b64_i1_le b1 hb1, b64_i2s_le _ (b64_x_le b1 hb1), trivial, trivial⟩]
    simp only [from_base64_go, b64_rec1s b1 hb1]
  | [b1, b2], h => by
    have hb1 : b1 < 256 := h b1 (by simp)
    have hb2 : b2 < 256 := h b2 (by simp)
    simp only [toBase64, from_base64_go, b64_pad_val,
      b64_sym_val _ (b64_i1_le b1 hb1),
      b64_sym_val _ (b64_i2_le _ (b64_x_le b1 hb1) _ (b64_h_le b2 hb2)),
      b64_sym_val _ (b64_i3s_le _ (b64_y_le b2 hb2))]
    rw [if_neg (by omega),
      if_pos ⟨b64_i1_le b1 hb1, b64_i2_le _ (b64_x_le b1 hb1) _ (b64_h_le b2 hb2),
        b64_i3s_le _ (b64_y_le b2 hb2), trivial⟩]
    simp only [from_base64_go,
      b64_rec1 b1 hb1 _ (b64_h_le b2 hb2), b64_rec2s _ (b64_x_le b1 hb1) b2 hb2]
  | b1 :: b2 :: b3 :: rest, h => by
    have hb1 : b1 < 256 := h b1 (by simp)
    have hb2 : b2 < 256 := h b2 (by simp)
    have hb3 : b3 < 256 := h b3 (by simp)
    have ih := from_base64_go_toBase64 rest
      (fun x hx => h x (by simp [hx]))
    simp only [toBase64, from_base64_go,
      b64_sym_val _ (b64_i1_le b1 hb1),
      b64_sym_val _ (b64_i2_le _ (b64_x_le b1 hb1) _ (b64_h_le b2 hb2)),
      b64_sym_val _ (b64_i3_le _ (b64_y_le b2 hb2) _ (b64_z_le b3 hb3)),
      b64_sym_val _ (b64_i4_le b3 hb3)]
    rw [if_pos ⟨b64_i1_le b1 hb1, b64_i2_le _ (b64_x_le b1 hb1) _ (b64_h_le b2 hb2),
        b64_i3_le _ (b64_y_le b2 hb2) _ (b64_z_le b3 hb3), b64_i4_le b3 hb3⟩,
      ih,
      b64_rec1 b1 hb1 _ (b64_h_le b2 hb2),
      b64_rec2 _ (b64_x_le b1 hb1) b2 hb2 _ (b64_z_le b3 hb3),
      b64_rec3 _ (b64_y_le b2 hb2) b3 hb3]

/-- C7: decoding the output of the base-16 encoder recovers the original
bytes, and likewise for base-64, including the final group carrying
zero, one or two pads. -/
theorem claim_C7 (bytes : List Nat) (h : ∀ b ∈ bytes, b < 256) :
    from_base16 (toBase16 bytes) = DecodeResult.ok bytes ∧
    from_base64 (toBase64 bytes) = DecodeResult.ok bytes := by
  constructor
  · unfold from_base16
    rw [if_neg (by rw [toBase16_length]; omega)]
    exact from_base16_go_toBase16 bytes h
  · unfold from_base64
    rw [if_neg (by have := toBase64_length_mod bytes; omega)]
    exact from_base64_go_toBase64 bytes h

/-- C7 witness: a four-byte input round-trips through both codecs (its
base-64 encoding ends in a two-pad group). -/
theorem claim_C7_witness :
    (∀ b ∈ [73, 39, 109, 32], b < 256) ∧
    from_base16 (toBase16 [73, 39, 109, 32]) = DecodeResult.ok [73, 39, 109, 32] ∧
    from_base64 (toBase64 [73, 39, 109, 32]) = DecodeResult.ok [73, 39, 109, 32] :=
  ⟨by decide, (claim_C7 [73, 39, 109, 32] (by decide)).1,
    (claim_C7 [73, 39, 109, 32] (by decide)).2⟩

/-! ## Characterization of the two strict-comparison search folds.

Both searches keep a running best and update it only on a strict IEEE
comparison.  The lemmas below characterize the result of such a fold
over a strictly increasing candidate list: the final score is a real
number that no candidate strictly beats, the final candidate either is
the initial default or attains its own score strictly better than the
default, and no earlier candidate attains the final score (first
strictly-better candidate wins). -/

lemma foldMax_spec (score : Nat → FP) (step : Nat × FP → Nat → Nat × FP)
    (hstep : ∀ best b, step best b =
      if FP.Lt best.2 (score b) then (b, score b) else best) :
    ∀ (xs : List Nat) (k0 : Nat) (e0 : ℝ),
      List.Pairwise (· < ·) xs → (∀ x ∈ xs, k0 ≤ x) →
      (∀ x ∈ xs, ¬ FP.Lt (xs.foldl step (k0, FP.val e0)).2 (score x)) ∧
      (xs.foldl step (k0, FP.val e0) = (k0, FP.val e0) ∨
        ((xs.foldl step (k0, FP.val e0)).1 ∈ xs ∧
         (xs.foldl step (k0, FP.val e0)).2 = score (xs.foldl step (k0, FP.val e0)).1 ∧
         FP.Lt (FP.val e0) (xs.foldl step (k0, FP.val e0)).2)) ∧
      (∃ er : ℝ, (xs.foldl step (k0, FP.val e0)).2 = FP.val er ∧ e0 ≤ er) ∧
      (∀ x ∈ xs, x < (xs.foldl step (k0, FP.val e0)).1 →
        score x ≠ (xs.foldl step (k0, FP.val e0)).2) := by
  intro xs
  induction xs with
  | nil =>
    intro k0 e0 _ _
    exact ⟨by simp, Or.inl rfl, ⟨e0, rfl, le_refl e0⟩, by simp⟩
  | cons x xs ih =>
    intro k0 e0 hsort hk
    have hxlt : ∀ y ∈ xs, x < y := fun y hy => (List.pairwise_cons.mp hsort).1 y hy
    have hsort' : List.Pairwise (· < ·) xs := (List.pairwise_cons.mp hsort).2
    rw [List.foldl_cons, hstep]
    by_cases hcase : FP.Lt (FP.val e0) (score x)
    · obtain ⟨sx, hsx, hlt⟩ : ∃ sx, score x = FP.val sx ∧ e0 < sx := by
        obtain ⟨a, b, ha, hb, hab⟩ := FP.lt_elim hcase
        exact ⟨b, hb, by rw [FP.val.inj ha]; exact hab⟩
      rw [if_pos hcase, hsx]
      obtain ⟨A, B, C, D⟩ := ih x sx hsort' (fun y hy => le_of_lt (hxlt y hy))
      obtain ⟨er, her, hle⟩ := C
      refine ⟨?_, ?_, ⟨er, her, le_of_lt (lt_of_lt_of_le hlt hle)⟩, ?_⟩
      · intro y hy
        rcases List.mem_cons.mp hy with rfl | hy'
        · rw [her, hsx]
          exact fun hlt2 => absurd hlt2 (not_lt.mpr hle)
        · exact A y hy'
      · rcases B with hB | ⟨hm, he, hl⟩
        · refine Or.inr ⟨?_, ?_, ?_⟩
          · rw [hB]; exact List.mem_cons_self x xs
          · rw [hB, hsx]
          · rw [hB]; exact hlt
        · exact Or.inr ⟨List.mem_cons_of_mem x hm, he,
            FP.lt_trans (show FP.Lt (FP.val e0) (FP.val sx) from hlt) hl⟩
      · intro y hy hylt
        rcases List.mem_cons.mp hy with rfl | hy'
        · rcases B with hB | ⟨_, _, hl⟩
          · rw [hB] at hylt; exact absurd hylt (lt_irrefl y)
          · rw [hsx, her]
            rw [her] at hl
            exact fun heq => absurd (FP.val.inj heq) (ne_of_lt hl)
        · exact D y hy' hylt
    · rw [if_neg hcase]
      obtain ⟨A, B, C, D⟩ := ih k0 e0 hsort' (fun y hy => hk y (List.mem_cons_of_mem x hy))
      obtain ⟨er, her, hle⟩ := C
      refine ⟨?_, ?_, ⟨er, her, hle⟩, ?_⟩
      · intro y hy
        rcases List.mem_cons.mp hy with rfl | hy'
        · rw [her]
          cases hs : score y with
          | nan => exact FP.not_lt_nan_right
          | val s =>
            rw [hs] at hcase
            exact fun hlt2 => absurd hlt2 (not_lt.mpr (le_trans (not_lt.mp hcase) hle))
        · exact A y hy'
      · rcases B with hB | ⟨hm, he, hl⟩
        · exact Or.inl hB
        · exact Or.inr ⟨List.mem_cons_of_mem x hm, he, hl⟩
      · intro y hy hylt
        rcases List.mem_cons.mp hy with rfl | hy'
        · intro heq
          rw [heq, her] at hcase
          have her' : er ≤ e0 := not_lt.mp hcase
          have hee : er = e0 := le_antisymm her' hle
          rcases B with hB | ⟨_, _, hl⟩
          · rw [hB] at hylt
            exact absurd (lt_of_lt_of_le hylt (hk y (List.mem_cons_self y xs))) (lt_irrefl y)
          · rw [her, hee] at hl
            exact absurd hl (lt_irrefl e0)
        · exact D y hy' hylt

lemma foldMin_spec (score : Nat → FP) (step : Nat × FP → Nat → Nat × FP)
    (hstep : ∀ best b, step best b =
      if FP.Lt (score b) best.2 then (b, score b) else best) :
    ∀ (xs : List Nat) (k0 : Nat) (e0 : ℝ),
      List.Pairwise (· < ·) xs → (∀ x ∈ xs, k0 ≤ x) →
      (∀ x ∈ xs, ¬ FP.Lt (score x) (xs.foldl step (k0, FP.val e0)).2) ∧
      (xs.foldl step (k0, FP.val e0) = (k0, FP.val e0) ∨
        ((xs.foldl step (k0, FP.val e0)).1 ∈ xs ∧
         (xs.foldl step (k0, FP.val e0)).2 = score (xs.foldl step (k0, FP.val e0)).1 ∧
         FP.Lt (xs.foldl step (k0, FP.val e0)).2 (FP.val e0))) ∧
      (∃ er : ℝ, (xs.foldl step (k0, FP.val e0)).2 = FP.val er ∧ er ≤ e0) ∧
      (∀ x ∈ xs, x < (xs.foldl step (k0, FP.val e0)).1 →
        score x ≠ (xs.foldl step (k0, FP.val e0)).2) := by
  intro xs
  induction xs with
  | nil =>
    intro k0 e0 _ _
    exact ⟨by simp, Or.inl rfl, ⟨e0, rfl, le_refl e0⟩, by simp⟩
  | cons x xs ih =>
    intro k0 e0 hsort hk
    have hxlt : ∀ y ∈ xs, x < y := fun y hy => (List.pairwise_cons.mp hsort).1 y hy
    have hsort' : List.Pairwise (· < ·) xs := (List.pairwise_cons.mp hsort).2
    rw [List.foldl_cons, hstep]
    by_cases hcase : FP.Lt (score x) (FP.val e0)
    · obtain ⟨sx, hsx, hlt⟩ : ∃ sx, score x = FP.val sx ∧ sx < e0 := by
        obtain ⟨a, b, ha, hb, hab⟩ := FP.lt_elim hcase
        exact ⟨a, ha, by rw [FP.val.inj hb]; exact hab⟩
      rw [if_pos hcase, hsx]
      obtain ⟨A, B, C, D⟩ := ih x sx hsort' (fun y hy => le_of_lt (hxlt y hy))
      obtain ⟨er, her, hle⟩ := C
      refine ⟨?_, ?_, ⟨er, her, le_of_lt (lt_of_le_of_lt hle hlt)⟩, ?_⟩
      · intro y hy
        rcases List.mem_cons.mp hy with rfl | hy'
        · rw [her, hsx]
          exact fun hlt2 => absurd hlt2 (not_lt.mpr hle)
        · exact A y hy'
      · rcases B with hB | ⟨hm, he, hl⟩
        · refine Or.inr ⟨?_, ?_, ?_⟩
          · rw [hB]; exact List.mem_cons_self x xs
          · rw [hB, hsx]
          · rw [hB]; exact hlt
        · exact Or.inr ⟨List.mem_cons_of_mem x hm, he,
            FP.lt_trans hl (show FP.Lt (FP.val sx) (FP.val e0) from hlt)⟩
      · intro y hy hylt
        rcases List.mem_cons.mp hy with rfl | hy'
        · rcases B with hB | ⟨_, _, hl⟩
          · rw [hB] at hylt; exact absurd hylt (lt_irrefl y)
          · rw [hsx, her]
            rw [her] at hl
            exact fun heq => absurd (FP.val.inj heq) (ne_of_gt hl)
        · exact D y hy' hylt
    · rw [if_neg hcase]
      obtain ⟨A, B, C, D⟩ := ih k0 e0 hsort' (fun y hy => hk y (List.mem_cons_of_mem x hy))
      obtain ⟨er, her, hle⟩ := C
      refine ⟨?_, ?_, ⟨er, her, hle⟩, ?_⟩
      · intro y hy
        rcases List.mem_cons.mp hy with rfl | hy'
        · rw [her]
          cases hs : score y with
          | nan => exact FP.not_lt_nan_left
          | val s =>
            rw [hs] at hcase
            exact fun hlt2 => absurd hlt2 (not_lt.mpr (le_trans hle (not_lt.mp hcase)))
        · exact A y hy'
      · rcases B with hB | ⟨hm, he, hl⟩
        · exact Or.inl hB
        · exact Or.inr ⟨List.mem_cons_of_mem x hm, he, hl⟩
      · intro y hy hylt
        rcases List.mem_cons.mp hy with rfl | hy'
        · intro heq
          rw [heq, her] at hcase
          have her' : e0 ≤ er := not_lt.mp hcase
          have hee : er = e0 := le_antisymm hle her'
          rcases B with hB | ⟨_, _, hl⟩
          · rw [hB] at hylt
            exact absurd (lt_of_lt_of_le hylt (hk y (List.mem_cons_self y xs))) (lt_irrefl y)
          · rw [her, hee] at hl
            exact absurd hl (lt_irrefl e0)
        · exact D y hy' hylt

/-! ## The single-byte breaker (C3, C10) -/

/-- C3: the single-byte breaker scores `xor(ciphertext, repeat(b))` with
`englishness` for every key byte `b < 256` and returns a pair `(k, e)`
such that: no candidate scores strictly above `e`; either `e` is the
score of `k` (with `k < 256`) or the result is the initial `(0, 0.0)`;
every key smaller than `k` scores strictly below `e` or scores NaN (so
on ties the first, lowest-valued key is kept); and whenever no candidate
scores strictly above `0` the result is exactly `(0, 0.0)` (in
particular on the empty input, where every score is NaN). -/
theorem claim_C3 (bytes : List Nat) :
    (∀ b < 256, ¬ FP.Lt (find_single_byte_xor_key bytes).2
      (englishness (xorRepeat bytes b))) ∧
    (((find_single_byte_xor_key bytes).1 < 256 ∧
      (find_single_byte_xor_key bytes).2 =
        englishness (xorRepeat bytes (find_single_byte_xor_key bytes).1)) ∨
      find_single_byte_xor_key bytes = (0, FP.val 0)) ∧
    (∀ b < (find_single_byte_xor_key bytes).1,
      FP.Lt (englishness (xorRepeat bytes b)) (find_single_byte_xor_key bytes).2 ∨
      englishness (xorRepeat bytes b) = FP.nan) ∧
    ((∀ b < 256, ¬ FP.Lt (FP.val 0) (englishness (xorRepeat bytes b))) →
      find_single_byte_xor_key bytes = (0, FP.val 0)) := by
  have hdef : find_single_byte_xor_key bytes =
      (List.range 256).foldl
        (fun best b =>
          let e := englishness (xorRepeat bytes b)
          if FP.Lt best.2 e then (b, e) else best)
        (0, FP.val 0) := rfl
  obtain ⟨A, B, C, D⟩ :=
    foldMax_spec (fun b => englishness (xorRepeat bytes b))
      (fun best b =>
        let e := englishness (xorRepeat bytes b)
        if FP.Lt best.2 e then (b, e) else best)
      (fun _ _ => rfl)
      (List.range 256) 0 0 (List.pairwise_lt_range 256) (fun x _ => Nat.zero_le x)
  rw [hdef]
  obtain ⟨er, her, _⟩ := C
  refine ⟨?_, ?_, ?_, ?_⟩
  · intro b hb
    exact A b (List.mem_range.mpr hb)
  · rcases B with hB | ⟨hm, he, _⟩
    · exact Or.inr hB
    · exact Or.inl ⟨List.mem_range.mp hm, he⟩
  · intro b hb
    rcases B with hB | ⟨hm, _, _⟩
    · rw [hB] at hb
      exact absurd hb (Nat.not_lt_zero b)
    · have hb256 : b < 256 := lt_trans hb (List.mem_range.mp hm)
      have hA := A b (List.mem_range.mpr hb256)
      have hD := D b (List.mem_range.mpr hb256) hb
      cases hs : englishness (xorRepeat bytes b) with
      | nan => exact Or.inr rfl
      | val s =>
        rw [hs] at hA hD
        rw [her] at hA hD ⊢
        refine Or.inl (show s < er from ?_)
        exact lt_of_le_of_ne (not_lt.mp hA) (fun heq => hD (congrArg FP.val heq))
  · intro hno
    rcases B with hB | ⟨hm, he, hl⟩
    · exact hB
    · exfalso
      rw [he] at hl
      exact hno _ (List.mem_range.mp hm) hl

/-- C3 witness: on the empty ciphertext every score is NaN, no candidate
scores strictly above `0`, and the result is exactly `(0, 0.0)`. -/
theorem claim_C3_witness : find_single_byte_xor_key [] = (0, FP.val 0) := by
  refine (claim_C3 []).2.2.2 ?_
  intro b _ hlt
  have he : englishness (xorRepeat [] b) = FP.nan := englishness_nil
  rw [he] at hlt
  exact FP.not_lt_nan_right hlt

lemma find_single_byte_xor_key_nil : find_single_byte_xor_key [] = (0, FP.val 0) := by
  have hdef : find_single_byte_xor_key [] =
      (List.range 256).foldl
        (fun best b =>
          let e := englishness (xorRepeat [] b)
          if FP.Lt best.2 e then (b, e) else best)
        (0, FP.val 0) := rfl
  obtain ⟨A, B, C, D⟩ :=
    foldMax_spec (fun b => englishness (xorRepeat [] b))
      (fun best b =>
        let e := englishness (xorRepeat [] b)
        if FP.Lt best.2 e then (b, e) else best)
      (fun _ _ => rfl)
      (List.range 256) 0 0 (List.pairwise_lt_range 256) (fun x _ => Nat.zero_le x)
  rw [hdef]
  rcases B with hB | ⟨_, he, hl⟩
  · exact hB
  · exfalso
    rw [he] at hl
    have hnan : ∀ b, englishness (xorRepeat [] b) = FP.nan := fun _ => englishness_nil
    simp only [] at hl
    rw [hnan] at hl
    exact FP.not_lt_nan_right hl

lemma find_repeating_key_xor_key_length_nil :
    find_repeating_key_xor_key_length [] = (1, FP.val 1) := rfl

lemma find_repeating_key_xor_key_length_fst_pos (bytes : List Nat) :
    1 ≤ (find_repeating_key_xor_key_length bytes).1 := by
  have hdef : find_repeating_key_xor_key_length bytes =
      (List.range' 1 (min bytes.length (MAX_SEARCHED_KEY_LENGTH + 1) - 1)).foldl
        (fun best l =>
          let dc := hamming_distance (bytes.drop l) bytes
          let d := FP.div (FP.val dc.1) (FP.val dc.2)
          if FP.Lt d best.2 then (l, d) else best)
        (1, FP.val 1) := rfl
  obtain ⟨A, B, C, D⟩ :=
    foldMin_spec
      (fun l => FP.div (FP.val (hamming_distance (bytes.drop l) bytes).1)
        (FP.val (hamming_distance (bytes.drop l) bytes).2))
      (fun best l =>
        let dc := hamming_distance (bytes.drop l) bytes
        let d := FP.div (FP.val dc.1) (FP.val dc.2)
        if FP.Lt d best.2 then (l, d) else best)
      (fun _ _ => rfl)
      (List.range' 1 (min bytes.length (MAX_SEARCHED_KEY_LENGTH + 1) - 1)) 1 1
      (List.pairwise_lt_range' 1 (min bytes.length (MAX_SEARCHED_KEY_LENGTH + 1) - 1))
      (fun x hx => (List.mem_range'_1.mp hx).1)
  rw [hdef]
  rcases B with hB | ⟨hm, _, _⟩
  · rw [hB]
  · exact (List.mem_range'_1.mp hm).1

lemma stepBy_nil (s : Nat) : stepBy s [] = [] := by simp [stepBy]

lemma find_repeating_key_xor_key_nil : find_repeating_key_xor_key [] = [0] := by
  have h1 : (find_repeating_key_xor_key_length ([] : List Nat)).1 = 1 := by
    rw [find_repeating_key_xor_key_length_nil]
  simp only [find_repeating_key_xor_key, h1, List.drop_nil, stepBy_nil,
    find_single_byte_xor_key_nil]
  decide

/-- C10: the recovered repeating key always has at least one byte, since
the estimated key length is at least `1`; on the empty ciphertext the
key is exactly the one-byte sequence `[0x00]`. -/
theorem claim_C10 :
    (∀ bytes : List Nat, 1 ≤ (find_repeating_key_xor_key bytes).length) ∧
    find_repeating_key_xor_key [] = [0] := by
  constructor
  · intro bytes
    have hlen : (find_repeating_key_xor_key bytes).length =
        (find_repeating_key_xor_key_length bytes).1 := by
      simp [find_repeating_key_xor_key]
    rw [hlen]
    exact find_repeating_key_xor_key_length_fst_pos bytes
  · exact find_repeating_key_xor_key_nil

/-! ## The key-length estimator (C4) -/

lemma countOnes_le_eight (n : Nat) : countOnes n ≤ 8 := by
  unfold countOnes
  omega

lemma zipWith_countOnes_le (as : List Nat) :
    ∀ (bs : List Nat),
      ∀ x ∈ List.zipWith (fun b1 b2 => countOnes (b1 ^^^ b2)) as bs, x ≤ 8 := by
  induction as with
  | nil => intro bs x hx; simp at hx
  | cons a as ih =>
    intro bs x hx
    cases bs with
    | nil => simp at hx
    | cons b bs =>
      rw [List.zipWith_cons_cons] at hx
      rcases List.mem_cons.mp hx with rfl | hx'
      · exact countOnes_le_eight _
      · exact ih bs x hx'

lemma hamming_snd (bytes : List Nat) (l : Nat) :
    (hamming_distance (bytes.drop l) bytes).2 = 8 * (bytes.length - l) := by
  simp only [hamming_distance, List.length_zipWith, List.length_drop]
  omega

lemma hamming_fst_le (bytes : List Nat) (l : Nat) :
    (hamming_distance (bytes.drop l) bytes).1 ≤ (hamming_distance (bytes.drop l) bytes).2 := by
  simp only [hamming_distance]
  have h := List.sum_le_card_nsmul
    (List.zipWith (fun b1 b2 => countOnes (b1 ^^^ b2)) (bytes.drop l) bytes) 8
    (zipWith_countOnes_le (bytes.drop l) bytes)
  simpa [smul_eq_mul, Nat.mul_comm] using h

lemma norm_dist_val (bytes : List Nat) (l : Nat) (hl : l < bytes.length) :
    ∃ q : ℝ,
      FP.div (FP.val (hamming_distance (bytes.drop l) bytes).1)
        (FP.val (hamming_distance (bytes.drop l) bytes).2) = FP.val q ∧
      0 ≤ q ∧ q ≤ 1 := by
  have hc8 := hamming_snd bytes l
  have hcpos : 0 < (hamming_distance (bytes.drop l) bytes).2 := by rw [hc8]; omega
  have hdc := hamming_fst_le bytes l
  have hcne : (((hamming_distance (bytes.drop l) bytes).2 : ℕ) : ℝ) ≠ 0 :=
    Nat.cast_ne_zero.mpr (Nat.pos_iff_ne_zero.mp hcpos)
  refine ⟨((hamming_distance (bytes.drop l) bytes).1 : ℝ) /
      ((hamming_distance (bytes.drop l) bytes).2 : ℝ), ?_, ?_, ?_⟩
  · simp only [FP.div]
    rw [if_neg hcne]
  · exact div_nonneg (Nat.cast_nonneg _) (Nat.cast_nonneg _)
  · rw [div_le_one (Nat.cast_pos.mpr hcpos)]
    exact Nat.cast_le.mpr hdc

/-- C4: the key-length estimator tries exactly the candidate lengths
`1 ≤ l ≤ min(n - 1, 40)`; for each candidate the normalizer is
`8 × (n − l)` bits and the normalized distance is a real number in
`[0, 1]`; the returned pair `(L, d)` satisfies: no candidate scores
strictly below `d`; either `(L, d)` is the initial default `(1, 1.0)` or
`L` is a candidate attaining `d = distance(L)`; every candidate smaller
than `L` has a strictly larger distance (earliest strict minimum wins);
and for `n ≤ 1` no candidate is tried and the default `(1, 1.0)` is
returned. -/
theorem claim_C4 (bytes : List Nat) :
    (bytes.length ≤ 1 → find_repeating_key_xor_key_length bytes = (1, FP.val 1)) ∧
    (∀ l, 1 ≤ l → l ≤ min (bytes.length - 1) 40 →
      (hamming_distance (bytes.drop l) bytes).2 = 8 * (bytes.length - l)) ∧
    (∀ l, 1 ≤ l → l ≤ min (bytes.length - 1) 40 →
      ∃ q : ℝ,
        FP.div (FP.val (hamming_distance (bytes.drop l) bytes).1)
          (FP.val (hamming_distance (bytes.drop l) bytes).2) = FP.val q ∧
        0 ≤ q ∧ q ≤ 1) ∧
    (∀ l, 1 ≤ l → l ≤ min (bytes.length - 1) 40 →
      ¬ FP.Lt (FP.div (FP.val (hamming_distance (bytes.drop l) bytes).1)
          (FP.val (hamming_distance (bytes.drop l) bytes).2))
        (find_repeating_key_xor_key_length bytes).2) ∧
    (find_repeating_key_xor_key_length bytes = (1, FP.val 1) ∨
      (1 ≤ (find_repeating_key_xor_key_length bytes).1 ∧
       (find_repeating_key_xor_key_length bytes).1 ≤ min (bytes.length - 1) 40 ∧
       (find_repeating_key_xor_key_length bytes).2 =
         FP.div
           (FP.val (hamming_distance
             (bytes.drop (find_repeating_key_xor_key_length bytes).1) bytes).1)
           (FP.val (hamming_distance
             (bytes.drop (find_repeating_key_xor_key_length bytes).1) bytes).2))) ∧
    (∀ l, 1 ≤ l → l < (find_repeating_key_xor_key_length bytes).1 →
      FP.Lt (find_repeating_key_xor_key_length bytes).2
        (FP.div (FP.val (hamming_distance (bytes.drop l) bytes).1)
          (FP.val (hamming_distance (bytes.drop l) bytes).2))) := by
  have hdef : find_repeating_key_xor_key_length bytes =
      (List.range' 1 (min bytes.length (MAX_SEARCHED_KEY_LENGTH + 1) - 1)).foldl
        (fun best l =>
          let dc := hamming_distance (bytes.drop l) bytes
          let d := FP.div (FP.val dc.1) (FP.val dc.2)
          if FP.Lt d best.2 then (l, d) else best)
        (1, FP.val 1) := rfl
  have hmem : ∀ l, l ∈ List.range' 1 (min bytes.length (MAX_SEARCHED_KEY_LENGTH + 1) - 1) ↔
      1 ≤ l ∧ l ≤ min (bytes.length - 1) 40 := by
    intro l
    rw [List.mem_range'_1]
    simp only [MAX_SEARCHED_KEY_LENGTH]
    omega
  obtain ⟨A, B, C, D⟩ :=
    foldMin_spec
      (fun l => FP.div (FP.val (hamming_distance (bytes.drop l) bytes).1)
        (FP.val (hamming_distance (bytes.drop l) bytes).2))
      (fun best l =>
        let dc := hamming_distance (bytes.drop l) bytes
        let d := FP.div (FP.val dc.1) (FP.val dc.2)
        if FP.Lt d best.2 then (l, d) else best)
      (fun _ _ => rfl)
      (List.range' 1 (min bytes.length (MAX_SEARCHED_KEY_LENGTH + 1) - 1)) 1 1
      (List.pairwise_lt_range' 1 (min bytes.length (MAX_SEARCHED_KEY_LENGTH + 1) - 1))
      (fun x hx => (List.mem_range'_1.mp hx).1)
  rw [hdef]
  obtain ⟨er, her, _⟩ := C
  refine ⟨?_, ?_, ?_, ?_, ?_, ?_⟩
  · intro hn
    have hz : min bytes.length (MAX_SEARCHED_KEY_LENGTH + 1) - 1 = 0 := by
      simp only [MAX_SEARCHED_KEY_LENGTH]
      omega
    rw [hz]
    rfl
  · intro l _ _
    exact hamming_snd bytes l
  · intro l h1 h2
    exact norm_dist_val bytes l (by omega)
  · intro l h1 h2
    exact A l ((hmem l).mpr ⟨h1, h2⟩)
  · rcases B with hB | ⟨hm, he, _⟩
    · exact Or.inl hB
    · exact Or.inr ⟨((hmem _).mp hm).1, ((hmem _).mp hm).2, he⟩
  · intro l h1 hl
    rcases B with hB | ⟨hm, he, hlt⟩
    · rw [hB] at hl
      omega
    · have hcand : l ∈ List.range' 1 (min bytes.length (MAX_SEARCHED_KEY_LENGTH + 1) - 1) := by
        rw [hmem]
        have := ((hmem _).mp hm).2
        omega
      have hA := A l hcand
      have hD := D l hcand hl
      obtain ⟨q, hq, _, _⟩ := norm_dist_val bytes l (by
        have := ((hmem _).mp hm).2
        omega)
      rw [hq] at hA hD ⊢
      rw [her] at hA hD ⊢
      refine show er < q from ?_
      exact lt_of_le_of_ne (not_lt.mp hA) (fun heq => hD (congrArg FP.val heq.symm))

/-- C4 witness: on the empty ciphertext no candidate length is tried and
the defined default `(1, 1.0)` is returned. -/
theorem claim_C4_witness :
    ([] : List Nat).length ≤ 1 ∧ find_repeating_key_xor_key_length [] = (1, FP.val 1) :=
  ⟨by decide, (claim_C4 []).1 (by decide)⟩

/-! ## The repeating-key breaker (C5) -/

lemma stepBy_getElem? (s : Nat) (hs : 1 ≤ s) :
    ∀ (xs : List Nat) (j : Nat), (stepBy s xs)[j]? = xs[j * s]?
  | [], j => by simp [stepBy]
  | b :: rest, 0 => by simp [stepBy]
  | b :: rest, j + 1 => by
    have ih := stepBy_getElem? s hs (rest.drop (s - 1)) j
    have harith : (j + 1) * s = (s - 1 + j * s) + 1 := by
      rw [Nat.succ_mul]
      generalize j * s = m
      omega
    rw [show stepBy s (b :: rest) = b :: stepBy s (rest.drop (s - 1)) from by simp [stepBy]]
    rw [List.getElem?_cons_succ, ih, List.getElem?_drop, harith, List.getElem?_cons_succ]
termination_by xs _ => xs.length
decreasing_by simp only [List.length_drop, List.length_cons]; omega

/-- C5: the recovered key has exactly `L` bytes, `L` being the estimated
key length, and key byte `i` is the key found by the single-byte breaker
on the `i`-th column stream `bytes.skip(i).step_by(L)`, which contains
exactly the ciphertext bytes at positions `i, i + L, i + 2L, …` in
order. -/
theorem claim_C5 (bytes : List Nat) :
    (find_repeating_key_xor_key bytes).length =
      (find_repeating_key_xor_key_length bytes).1 ∧
    ∀ i, i < (find_repeating_key_xor_key_length bytes).1 →
      (find_repeating_key_xor_key bytes)[i]? =
        some ((find_single_byte_xor_key
          (stepBy (find_repeating_key_xor_key_length bytes).1 (bytes.drop i))).1) ∧
      ∀ j, (stepBy (find_repeating_key_xor_key_length bytes).1 (bytes.drop i))[j]? =
        bytes[i + j * (find_repeating_key_xor_key_length bytes).1]? := by
  constructor
  · simp [find_repeating_key_xor_key]
  · intro i hi
    constructor
    · simp only [find_repeating_key_xor_key]
      rw [List.getElem?_map, List.getElem?_range hi]
      rfl
    · intro j
      rw [stepBy_getElem? _ (find_repeating_key_xor_key_length_fst_pos bytes) _ j,
        List.getElem?_drop]

/-- C5 witness: on the empty ciphertext the estimated length is `1` and
key byte `0` is the single-byte key of column `0`. -/
theorem claim_C5_witness :
    (0 : Nat) < (find_repeating_key_xor_key_length ([] : List Nat)).1 ∧
    (find_repeating_key_xor_key [])[0]? =
      some ((find_single_byte_xor_key
        (stepBy (find_repeating_key_xor_key_length ([] : List Nat)).1
          (([] : List Nat).drop 0))).1) := by
  have h0 : (0 : Nat) < (find_repeating_key_xor_key_length ([] : List Nat)).1 := by
    rw [find_repeating_key_xor_key_length_nil]
    exact Nat.one_pos
  exact ⟨h0, ((claim_C5 []).2 0 h0).1⟩

end Cryptopals
